import Mathlib

/-!
Verification of the cc-codex-crawler harvesting core.

This file shallowly embeds the parts of the repository that the checked
properties are about:

* `fetcher.py`            — `RecordSelector.matches`
* `crawler.py`            — the worker-pool quota logic of `process_warc` and
                            the resumption/state logic of `main`
* `streaming_processor.py`— the chunked gzip line iterators, `fetch_lines`,
                            and the producer/consumer shutdown protocol
* `utils.py`              — `save_file`, `list_warc_keys_http`,
                            `stream_and_extract_http`'s retry loop
* `http_utils.py`         — `fetch_with_backoff`'s retry loop

Python strings are modelled as `String` where only equality matters and as
`List Char` where the proofs need character-level reasoning; byte strings are
modelled as `List Nat`.
-/

namespace CCCrawler

/-! ## Record selector (`fetcher.py`, `RecordSelector`)

A parsed metadata record is a Python `dict`, modelled as a partial map from
field names to values (`record.get(field)` is plain application).  The
selector holds the `must` / `must_not` / `should` sections as association
lists from field name to the list of allowed values, exactly the shape
`RecordSelector.from_dict` produces. -/

structure RecordSelector where
  must : List (String × List String)
  must_not : List (String × List String)
  should : List (String × List String)

/-- Python membership test `record.get(field) in values`: a missing field
(`None`) is never a member of a list of strings. -/
def optMem (v : Option String) (vals : List String) : Bool :=
  match v with
  | none => false
  | some s => vals.contains s

/-- `RecordSelector.matches` (fetcher.py lines 52–64): every `must` field's
value must be in its allowed list, no `must_not` field's value may be in its
list, and if `should` is non-empty at least one `should` field must hit. -/
def RecordSelector.matches (sel : RecordSelector) (record : String → Option String) : Bool :=
  sel.must.all (fun fv => optMem (record fv.1) fv.2) &&
  sel.must_not.all (fun fv => !optMem (record fv.1) fv.2) &&
  (sel.should.isEmpty || sel.should.any (fun fv => optMem (record fv.1) fv.2))

/-- The selector of the spec's scenario:
`must={status:[200]}, mustNot={mime:[video/avi]}, should={mime-detected:[video/mp4]}`. -/
def scenarioSelector : RecordSelector :=
  { must := [("status", ["200"])]
    must_not := [("mime", ["video/avi"])]
    should := [("mime-detected", ["video/mp4"])] }

/-- The scenario record `{status:200, mime:video/mp4, mime-detected:video/mp4}`. -/
def scenarioRecordMp4 : String → Option String := fun f =>
  if f = "status" then some "200"
  else if f = "mime" then some "video/mp4"
  else if f = "mime-detected" then some "video/mp4"
  else none

/-- The scenario record with `mime` changed to `video/avi`. -/
def scenarioRecordAvi : String → Option String := fun f =>
  if f = "status" then some "200"
  else if f = "mime" then some "video/avi"
  else if f = "mime-detected" then some "video/mp4"
  else none

/-! ## Coordinator resumption and completion state (`crawler.py`, `main` /
`process_warc`)

`main` loads the completed-key set, filters it out of the candidate list,
bails out when nothing remains, and each `process_warc` call adds its key to
the state and persists it in a `finally` block — regardless of whether
processing succeeded.  The state set is modelled as a duplicate-free list. -/

/-- `completed_keys.add(key)` on a Python set. -/
def stateAdd (state : List String) (key : String) : List String :=
  if key ∈ state then state else state ++ [key]

/-- The per-segment worker loop of `main`: each key is processed (its
success/failure given by `outcome`), and in a `finally`-guaranteed step the
key is added to the completion state and the state is persisted.  Returns the
final state, the per-segment results, and the persisted snapshot after each
segment. -/
def processSegments (outcome : String → Bool) :
    List String → List String → List String × List (String × Bool) × List (List String)
  | state, [] => (state, [], [])
  | state, key :: rest =>
    let state' := stateAdd state key
    let r := processSegments outcome state' rest
    (r.1, (key, outcome key) :: r.2.1, state' :: r.2.2)

/-- `main`'s dispatch logic (crawler.py lines 214–219): subtract the loaded
state from the candidate list, and do nothing when no keys remain.  Returns
(final persisted state, dispatched keys, persisted snapshots). -/
def runCoordinator (keys : List String) (completed : List String) (outcome : String → Bool) :
    List String × List String × List (List String) :=
  let todo := if completed.isEmpty then keys
              else keys.filter (fun k => decide (k ∉ completed))
  if todo.isEmpty then (completed, [], [])
  else
    let r := processSegments outcome completed todo
    (r.1, todo, r.2.2)

/-! ## Retry with backoff (`utils.py` `stream_and_extract_http` and
`http_utils.py` `fetch_with_backoff`)

A fetch is modelled as a function from the attempt index to an `Except`
outcome.  `retryLoop` is the retry skeleton shared by both call sites: try
the current attempt; on success return; on failure re-raise the last error
when no tries remain, otherwise sleep `delays attempt` and retry.  It returns
the final result, the list of sleep delays performed (in order), and the list
of attempt indices performed. -/

def retryLoop {E A : Type} (f : Nat → Except E A) (delays : Nat → Nat) :
    Nat → Nat → Except E A × List Nat × List Nat
  | attempt, t + 2 =>
    match f attempt with
    | .ok v => (.ok v, [], [attempt])
    | .error _ =>
      let r := retryLoop f delays (attempt + 1) (t + 1)
      (r.1, delays attempt :: r.2.1, attempt :: r.2.2)
  | attempt, _ =>
    match f attempt with
    | .ok v => (.ok v, [], [attempt])
    | .error e => (.error e, [], [attempt])

/-- The doubling backoff of `stream_and_extract_http`: `backoff` starts at
1.0 and doubles after each sleep, so the sleep before retry `i + 1` is
`2 ^ i` seconds. -/
def pow2Delay (i : Nat) : Nat := 2 ^ i

/-- The three-attempt retry of `stream_and_extract_http` (utils.py 307–334):
raise on the third failure, doubling backoff between attempts. -/
def shortRetry {E A : Type} (f : Nat → Except E A) : Except E A × List Nat × List Nat :=
  retryLoop f pow2Delay 0 3

/-- `BACKOFF_DELAYS` (http_utils.py). -/
def BACKOFF_DELAYS : List Nat := [30, 120, 600, 1800]

/-- `BACKOFF_DELAYS[min(backoff_idx, len(BACKOFF_DELAYS) - 1)]`: the delay
table, repeating its last entry. -/
def tableDelay (i : Nat) : Nat :=
  BACKOFF_DELAYS.getD (min i (BACKOFF_DELAYS.length - 1)) 0

/-- `fetch_with_backoff` (http_utils.py 20–43): re-raise once `retries`
reaches `max_retries` — a budget of `maxRetries + 1` attempts — with delays
drawn from `BACKOFF_DELAYS`. -/
def longRetry {E A : Type} (maxRetries : Nat) (f : Nat → Except E A) :
    Except E A × List Nat × List Nat :=
  retryLoop f tableDelay 0 (maxRetries + 1)

/-- A fetch that fails transiently on the first `k` attempts, then succeeds
with payload `v`. -/
def failThenOk {E A : Type} (err : Nat → E) (v : A) (k : Nat) : Nat → Except E A :=
  fun i => if i < k then .error (err i) else .ok v

/-- A fetch that fails on every attempt. -/
def allFail {E A : Type} (err : Nat → E) : Nat → Except E A :=
  fun i => .error (err i)

/-! ## HTTP outcomes and 404 handling (`utils.py` `stream_and_extract_http`,
`streaming_processor.py` `fetch_lines`) -/

/-- One HTTP attempt's outcome: a streamed success, a response carrying an
HTTP status code, or a network-level connection error. -/
inductive FetchOutcome (A : Type)
  | success (payload : A)
  | httpStatus (code : Nat)
  | connError
deriving DecidableEq

/-- The error a fetch attempt can raise: an `HTTPError` carrying the status
code, or a connection-level `RequestException`. -/
inductive FetchErr
  | http (code : Nat)
  | conn
deriving DecidableEq

/-- One `requests.get` + `resp.raise_for_status()` attempt as performed by
`stream_and_extract_http`: statuses of 400 and above (404 included) raise an
`HTTPError`; a connection failure raises too.  (A sub-400 status proceeds to
the streaming body, whose payload is not further modelled here.) -/
def requestsAttempt {A : Type} [Inhabited A] (out : Nat → FetchOutcome A) (i : Nat) :
    Except FetchErr A :=
  match out i with
  | .success p => .ok p
  | .httpStatus c => if 400 ≤ c then .error (.http c) else .ok default
  | .connError => .error .conn

/-- The retry wrapper of `stream_and_extract_http`: every raise — the 404
`HTTPError` included, since `except requests.RequestException` catches it —
goes through the doubling-backoff retry. -/
def streamExtractHttpFetch {A : Type} [Inhabited A] (out : Nat → FetchOutcome A) :
    Except FetchErr A × List Nat × List Nat :=
  shortRetry (requestsAttempt out)

/-- The result of `fetch_lines`: a 404 logs and returns (a skip for that URL
only), success yields the payload, retry exhaustion re-raises. -/
inductive FLResult (A : Type)
  | skip
  | done (x : A)
  | failed (e : FetchErr)
deriving DecidableEq

/-- One attempt of `fetch_lines`'s `try` body: a 404 returns immediately (a
skip), before any raise; a 503 is raised explicitly; `raise_for_status`
raises for the other 4xx/5xx codes; a connection failure raises. -/
def flAttempt {A : Type} [Inhabited A] (out : Nat → FetchOutcome A) (i : Nat) :
    Except FetchErr (FLResult A) :=
  match out i with
  | .success x => .ok (.done x)
  | .httpStatus c =>
    if c = 404 then .ok .skip
    else if c = 503 then .error (.http c)
    else if 400 ≤ c then .error (.http c)
    else .ok (.done default)
  | .connError => .error .conn

/-- `fetch_lines` (streaming_processor.py 69–93): raised attempts are caught
and retried up to `max_retries` times on the `BACKOFF_DELAYS` schedule. -/
def fetchLinesLoop {A : Type} [Inhabited A] (out : Nat → FetchOutcome A) :
    Nat → Nat → FLResult A × List Nat
  | attempt, 0 =>
    (match flAttempt out attempt with
     | .ok r => (r, [])
     | .error e => (.failed e, []))
  | attempt, t + 1 =>
    match flAttempt out attempt with
    | .ok r => (r, [])
    | .error _ =>
      let r := fetchLinesLoop out (attempt + 1) t
      (r.1, tableDelay attempt :: r.2)

/-- `fetch_lines` entry: `retries` starts at 0 against `config.max_retries`. -/
def fetchLines {A : Type} [Inhabited A] (out : Nat → FetchOutcome A)
    (maxRetries : Nat) : FLResult A × List Nat :=
  fetchLinesLoop out 0 maxRetries

/-! ## Chunked gzip line iteration (`streaming_processor.py`
`_iter_gzip_lines_from_response` / `_iter_gzip_lines_from_file`)

Both iterators run the same loop: feed each arriving chunk to
`zlib.decompressobj(16 + zlib.MAX_WBITS)`, append the produced plaintext to a
carry buffer, split off and yield every complete line, and at end of stream
flush and yield any remaining partial line.

The gzip container is modelled abstractly: a stream is a list of members,
each with a compressed length and a decompressed plaintext (bytes as `Nat`).
CPython's `zlib.decompressobj(16 + zlib.MAX_WBITS)` inflates exactly ONE gzip
member: once the first member's last compressed byte has been consumed, the
decompressor is at stream end and every further input byte is stored as
`unused_data`, producing no output (neither iterator ever starts a new
decompressor or reads `unused_data`).  When exactly plaintext bytes appear is
codec-internal, so it is abstracted by a schedule: after `n` compressed bytes
have been consumed, `sched n` plaintext bytes have been produced — a valid
schedule is monotone, starts at 0, and has produced the whole plaintext once
the member's last byte is in (`decompress` returns all decodable output, and
the final `flush()` of a completely received member adds nothing).  Chunks
are given by their sizes, since only byte counts drive this model. -/

structure GzipMember where
  compLen : Nat
  plain : List Nat

/-- The newline byte. -/
def NL : Nat := 10

/-- Plaintext produced in total after `n` bytes of the whole stream have been
fed: input beyond the first member's end produces nothing. -/
def emitted (m : GzipMember) (sched : Nat → Nat) (n : Nat) : List Nat :=
  m.plain.take (sched (min n m.compLen))

/-- `while b"\n" in buf: line, buf = buf.split(b"\n", 1)`: the complete lines
of a byte buffer, and the remaining partial line. -/
def splitCL : List Nat → List (List Nat) × List Nat
  | [] => ([], [])
  | b :: rest =>
    if b = NL then
      ([] :: (splitCL rest).1, (splitCL rest).2)
    else
      match splitCL rest with
      | ([], r) => ([], b :: r)
      | (l :: ls, r) => ((b :: l) :: ls, r)

/-- The lines a terminated iteration yields for a fully decompressed
plaintext: all complete lines, plus the flushed trailing partial line. -/
def linesOf (p : List Nat) : List (List Nat) :=
  (splitCL p).1 ++ (if (splitCL p).2 = [] then [] else [(splitCL p).2])

/-- The shared chunk loop of both iterators: `consumed` counts stream bytes
fed so far, `buf` is the partial-line carry, `out` the lines yielded so far.
Each chunk's decompressor output (if non-empty) is appended to `buf` and
complete lines are yielded; at end of stream `buf += decompressor.flush()`
(nothing further for a complete member) and a non-empty `buf` is yielded. -/
def iterGo (m : GzipMember) (sched : Nat → Nat) :
    List Nat → Nat → List Nat → List (List Nat) → List (List Nat)
  | [], _, buf, out => out ++ (if buf = [] then [] else [buf])
  | k :: ks, consumed, buf, out =>
    let part := (emitted m sched (consumed + k)).drop (sched (min consumed m.compLen))
    if part = [] then iterGo m sched ks (consumed + k) buf out
    else
      iterGo m sched ks (consumed + k) (splitCL (buf ++ part)).2
        (out ++ (splitCL (buf ++ part)).1)

/-- A gzip line iterator over a (possibly multi-member) stream delivered in
chunks of the given sizes. -/
def iterGzipLines (members : List GzipMember) (sched : Nat → Nat)
    (chunks : List Nat) : List (List Nat) :=
  iterGo (members.headD ⟨0, []⟩) sched chunks 0 [] []

/-- The lines of the concatenation of ALL members' decompressed plaintext —
what the spec says the iterators yield. -/
def streamLines (members : List GzipMember) : List (List Nat) :=
  linesOf ((members.map GzipMember.plain).flatten)

/-! ## Manifest listing (`utils.py` `list_warc_keys_http`)

The decompressed manifest is a list of lines, modelled as `List Char` so
that the `crawl-data/` prefixing is character-exact. -/

/-- Python `str.strip()`: remove leading and trailing whitespace. -/
def pyStrip (l : List Char) : List Char :=
  ((l.dropWhile Char.isWhitespace).reverse.dropWhile Char.isWhitespace).reverse

/-- The literal `"crawl-data/"` that `list_warc_keys_http` prepends. -/
def dataRoot : List Char := "crawl-data/".toList

/-- The `".warc.gz"` suffix filter. -/
def warcSuffix : List Char := ".warc.gz".toList

/-- The line loop of `list_warc_keys_http` (utils.py 271–279): strip each
line, keep it only if it ends with `.warc.gz`, append it with `crawl-data/`
prepended (unconditionally), and break as soon as the key list has reached
`max_keys`. -/
def manifestLoop (maxKeys : Nat) : List (List Char) → List (List Char) → List (List Char)
  | acc, [] => acc
  | acc, line :: rest =>
    let key := pyStrip line
    if warcSuffix.isSuffixOf key then
      let acc' := acc ++ [dataRoot ++ key]
      if maxKeys ≤ acc'.length then acc' else manifestLoop maxKeys acc' rest
    else manifestLoop maxKeys acc rest

/-- `list_warc_keys_http`'s manifest processing, from decompressed lines. -/
def manifestKeys (lines : List (List Char)) (maxKeys : Nat) : List (List Char) :=
  manifestLoop maxKeys [] lines

/-! ## Producer/consumer shutdown (`streaming_processor.py` `producer`,
`consumer`, `run`)

Queue items are `Option String`: `some url` is work, `none` is the shutdown
sentinel. -/

/-- `producer` (streaming_processor.py 96–99): enqueue every URL and then
ONE sentinel. -/
def producerPuts (urls : List String) : List (Option String) :=
  urls.map some ++ [none]

/-- `run` (streaming_processor.py 132–149): after the first `queue.join()`
drains, enqueue one further sentinel per consumer task. -/
def shutdownPuts (consumers : Nat) : List (Option String) :=
  List.replicate consumers none

/-- Every item `run` ever enqueues over the whole execution. -/
def allPuts (urls : List String) (consumers : Nat) : List (Option String) :=
  producerPuts urls ++ shutdownPuts consumers

/-! ## Worker-pool sample quota (`crawler.py` `process_warc`, lines 245–261)

`process_warc` checks the quota under the lock, releases the lock for the
`save_file` call, and re-acquires it for the increment.  The model projects a
run onto one extension category: each worker holds a number of pending
matched records for that category; `ready` means the worker's next action is
the locked quota check, `writing` that it passed and will call `save_file`,
`incr` that it wrote and will do the locked `saved_counts[ext] += 1`.  A
schedule is the list of worker indices in the order the OS interleaves their
atomic actions. -/

inductive Phase
  | ready
  | writing
  | incr
deriving DecidableEq

structure Worker where
  phase : Phase
  recs : Nat
deriving DecidableEq

structure PoolState where
  count : Nat
  files : Nat
  workers : List Worker
deriving DecidableEq

/-- One scheduler step: run worker `i`'s next atomic action. -/
def poolStep (cap : Nat) (s : PoolState) (i : Nat) : PoolState :=
  match s.workers.get? i with
  | none => s
  | some w =>
    match w.phase with
    | .ready =>
      if w.recs = 0 then s
      else if cap ≤ s.count then
        { s with workers := s.workers.set i { w with recs := w.recs - 1 } }
      else
        { s with workers := s.workers.set i { w with phase := .writing } }
    | .writing =>
      { s with files := s.files + 1,
               workers := s.workers.set i { w with phase := .incr } }
    | .incr =>
      { s with count := s.count + 1,
               workers := s.workers.set i { w with phase := .ready, recs := w.recs - 1 } }

/-- Run a whole schedule. -/
def poolRun (cap : Nat) (s : PoolState) (sched : List Nat) : PoolState :=
  sched.foldl (poolStep cap) s

/-- The initial pool: zero saved count, zero files on disk, every worker at
the quota check with its pending record count. -/
def initPool (recs : List Nat) : PoolState :=
  { count := 0, files := 0
    workers := recs.map (fun n => { phase := .ready, recs := n }) }

/-- 1 for a worker past its quota check that has not yet incremented. -/
def phaseBusy (p : Phase) : Nat := if p = .ready then 0 else 1

/-- 1 for a worker that wrote its file but has not yet incremented. -/
def phasePend (p : Phase) : Nat := if p = .incr then 1 else 0

def busy (ws : List Worker) : Nat := (ws.map (fun w => phaseBusy w.phase)).sum

def pend (ws : List Worker) : Nat := (ws.map (fun w => phasePend w.phase)).sum

/-- The inductive invariant of the quota race: the file count equals the
shared counter plus the writes not yet counted, and the counter plus all
in-flight workers stays below `cap + nWorkers`. -/
def PoolInv (cap nWorkers : Nat) (s : PoolState) : Prop :=
  s.workers.length = nWorkers ∧
  s.files = s.count + pend s.workers ∧
  (s.count + busy s.workers + 1 ≤ cap + nWorkers ∨
    (s.count = 0 ∧ busy s.workers = 0))

/-! ## Collision-safe file writer (`utils.py` `save_file`)

The filesystem is a list of `(path, contents)` pairs in creation order:
`os.path.exists` is membership among the paths and a write appends.  Strings
are `List Char`, payloads `List Nat`.  The URL parsing mirrors CPython's
`urllib.parse.urlparse` for the pieces `save_file` uses: scheme and netloc
are removed; the fragment (from the first `#`), the query (from the first
`?`), and — for schemes that use parameters — the params (from the first `;`
after the last `/`) are stripped. -/

/-- `scheme_chars` of `urllib.parse`. -/
def schemeChar (c : Char) : Bool :=
  c.isAlpha || c.isDigit || c = '+' || c = '-' || c = '.'

/-- Split off `scheme:` when present: a colon must exist beyond position 0,
the first character must be a letter, and everything before the colon must be
a scheme character.  Returns the lowercased scheme and the rest. -/
def splitScheme (url : List Char) : List Char × List Char :=
  let pre := url.takeWhile (fun c => !(c = ':'))
  if pre.length < url.length && !pre.isEmpty &&
      (pre.headD 'a').isAlpha && pre.all schemeChar then
    (pre.map Char.toLower, url.drop (pre.length + 1))
  else ([], url)

/-- Drop `//netloc` when present: the netloc extends up to the next `/`,
`?` or `#`, which stays in the remainder. -/
def dropNetloc (rest : List Char) : List Char :=
  match rest with
  | '/' :: '/' :: tail => tail.dropWhile (fun c => !(c = '/' || c = '?' || c = '#'))
  | other => other

/-- Cut the URL at the first `#`. -/
def dropFragment (p : List Char) : List Char := p.takeWhile (fun c => !(c = '#'))

/-- Cut the URL at the first `?`. -/
def dropQuery (p : List Char) : List Char := p.takeWhile (fun c => !(c = '?'))

/-- `uses_params` of `urllib.parse`. -/
def usesParams : List (List Char) :=
  ["".toList, "ftp".toList, "hdl".toList, "prospero".toList, "http".toList,
   "imap".toList, "https".toList, "shttp".toList, "rtsp".toList,
   "rtspu".toList, "sip".toList, "sips".toList, "mms".toList, "sftp".toList,
   "tel".toList]

/-- `_splitparams`, called when the path contains `;`: cut at the first `;`
occurring in the last `/`-segment (or anywhere when there is no `/`);
when a `/` exists but its last segment has no `;`, return the path
unchanged. -/
def dropParams (p : List Char) : List Char :=
  if p.contains '/' then
    let finalSeg := (p.reverse.takeWhile (fun c => !(c = '/'))).reverse
    if finalSeg.contains ';' then
      p.take (p.length - finalSeg.length) ++ finalSeg.takeWhile (fun c => !(c = ';'))
    else p
  else p.takeWhile (fun c => !(c = ';'))

/-- `urllib.parse.urlparse(url).path`. -/
def urlPath (url : List Char) : List Char :=
  let sr := splitScheme url
  let path := dropQuery (dropFragment (dropNetloc sr.2))
  if usesParams.contains sr.1 && path.contains ';' then dropParams path else path

/-- `os.path.basename`: everything after the last `/`. -/
def basenameL (p : List Char) : List Char :=
  (p.reverse.takeWhile (fun c => !(c = '/'))).reverse

/-- A character the sanitizer keeps: `[a-zA-Z0-9._-]`. -/
def allowedChar (c : Char) : Bool :=
  ('a' ≤ c && c ≤ 'z') || ('A' ≤ c && c ≤ 'Z') || ('0' ≤ c && c ≤ '9') ||
  c = '.' || c = '_' || c = '-'

/-- `re.sub(r"[^a-zA-Z0-9._-]", "_", base)`. -/
def sanitize (l : List Char) : List Char :=
  l.map (fun c => if allowedChar c then c else '_')

/-- `os.path.splitext` for names without path separators: split at the last
dot, unless every character before that dot is itself a dot. -/
def splitext (p : List Char) : List Char × List Char :=
  let rtail := p.reverse.takeWhile (fun c => !(c = '.'))
  if rtail.length = p.length then (p, [])
  else
    let nameLen := p.length - rtail.length - 1
    if (p.take nameLen).any (fun c => !(c = '.')) then
      (p.take nameLen, p.drop nameLen)
    else (p, [])

/-- Python `str(counter)`: decimal digits, most significant first. -/
def natChars (n : Nat) : List Char :=
  if n = 0 then ['0'] else ((Nat.digits 10 n).map Nat.digitChar).reverse

/-- The candidate filename for collision counter `k`: the sanitized base for
`k = 0`, and `name + "_" + str(k) + ext` afterwards. -/
def numbered (name ext : List Char) : Nat → List Char
  | 0 => name ++ ext
  | k + 1 => name ++ '_' :: (natChars (k + 1) ++ ext)

/-- `os.path.join` (posix) for the cases `save_file` reaches. -/
def pathJoin (dir name : List Char) : List Char :=
  if name.head? = some '/' then name
  else if dir = [] then name
  else if dir.getLast? = some '/' then dir ++ name
  else dir ++ '/' :: name

/-- The loop `while os.path.exists(os.path.join(output_dir, candidate))`:
the first free candidate index, starting from `k` and trying at most `fuel`
candidates — `|paths| + 1` always suffice, by pigeonhole over the pairwise
distinct candidate names. -/
def findFree (paths : List (List Char)) (dir name ext : List Char) :
    Nat → Nat → Nat
  | 0, k => k
  | fuel + 1, k =>
    if pathJoin dir (numbered name ext k) ∈ paths then
      findFree paths dir name ext fuel (k + 1)
    else k

/-- `save_file(data, url, output_dir)` (utils.py 159–208) over filesystem
`fs`: take the basename of the parsed URL path, fall back to `"file"` when it
is empty, sanitize, split the extension, probe `base`, `name_1.ext`,
`name_2.ext`, … until a free name is found, and write.  Returns the new
filesystem and the written path. -/
def saveFile (fs : List (List Char × List Nat)) (data : List Nat)
    (url : List Char) (dir : List Char) :
    List (List Char × List Nat) × List Char :=
  let base0 := basenameL (urlPath url)
  let base1 := if base0 = [] then "file".toList else base0
  let base := sanitize base1
  let ne := splitext base
  let paths := fs.map Prod.fst
  let k := findFree paths dir ne.1 ne.2 (paths.length + 1) 0
  let path := pathJoin dir (numbered ne.1 ne.2 k)
  (fs ++ [(path, data)], path)

/-- The sanitized base name `save_file` derives from a URL. -/
def saveBase (url : List Char) : List Char :=
  sanitize (if basenameL (urlPath url) = [] then "file".toList
            else basenameL (urlPath url))

/-- The stem of the derived name. -/
def saveName (url : List Char) : List Char := (splitext (saveBase url)).1

/-- The extension of the derived name. -/
def saveExt (url : List Char) : List Char := (splitext (saveBase url)).2

/-- The path `save_file` produces for the `i`-th write of the same URL into
the same directory. -/
def savedPath (url dir : List Char) (i : Nat) : List Char :=
  pathJoin dir (numbered (saveName url) (saveExt url) i)

/-- N payloads written from the same URL into the same (initially empty)
output directory, one `save_file` call after another. -/
def saveAll (url dir : List Char) (payloads : List (List Nat)) :
    List (List Char × List Nat) :=
  payloads.foldl (fun fs p => (saveFile fs p url dir).1) []

/-! # Theorems -/

/-! ## C1: selector semantics -/

/-- C1: `RecordSelector.matches` returns true iff all `must` conditions hold,
no `must_not` condition holds, and (when `should` is non-empty) at least one
`should` condition holds — an empty `should` passes vacuously; moreover the
spec's concrete scenario selector matches the `video/mp4` record and rejects
the `video/avi` record. -/
theorem C1_selector_matches_iff :
    (∀ (sel : RecordSelector) (record : String → Option String),
      sel.matches record = true ↔
        ((∀ fv ∈ sel.must, optMem (record fv.1) fv.2 = true) ∧
         (∀ fv ∈ sel.must_not, optMem (record fv.1) fv.2 = false) ∧
         (sel.should = [] ∨ ∃ fv ∈ sel.should, optMem (record fv.1) fv.2 = true)))
    ∧ scenarioSelector.matches scenarioRecordMp4 = true
    ∧ scenarioSelector.matches scenarioRecordAvi = false := by
  refine ⟨fun sel record => ?_, by decide, by decide⟩
  unfold RecordSelector.matches
  simp only [Bool.and_eq_true, List.all_eq_true, Bool.or_eq_true, List.any_eq_true,
    List.isEmpty_iff, Bool.not_eq_true']
  rw [and_assoc]

/-! ## C9/C10: collision-safe file writing -/

lemma digitChar_inj_lt : ∀ a < 10, ∀ b < 10,
    Nat.digitChar a = Nat.digitChar b → a = b := by decide

lemma map_digitChar_inj : ∀ l1 l2 : List Nat, (∀ x ∈ l1, x < 10) →
    (∀ x ∈ l2, x < 10) → l1.map Nat.digitChar = l2.map Nat.digitChar → l1 = l2 := by
  intro l1
  induction l1 with
  | nil =>
    intro l2 _ _ h
    cases l2 with
    | nil => rfl
    | cons b t2 => simp at h
  | cons a t ih =>
    intro l2 h1 h2 h
    cases l2 with
    | nil => simp at h
    | cons b t2 =>
      simp only [List.map_cons, List.cons.injEq] at h
      have hab := digitChar_inj_lt a (h1 a (by simp)) b (h2 b (by simp)) h.1
      subst hab
      rw [ih t2 (fun x hx => h1 x (by simp [hx])) (fun x hx => h2 x (by simp [hx])) h.2]

lemma natChars_pos_inj (a b : Nat) (ha : a ≠ 0) (hb : b ≠ 0)
    (h : natChars a = natChars b) : a = b := by
  unfold natChars at h
  rw [if_neg ha, if_neg hb] at h
  have h' := List.reverse_inj.mp h
  have hd := map_digitChar_inj _ _
    (fun x hx => Nat.digits_lt_base (by norm_num) hx)
    (fun x hx => Nat.digits_lt_base (by norm_num) hx) h'
  exact Nat.digits_inj_iff.mp hd

lemma natChars_ne_nil (n : Nat) : natChars n ≠ [] := by
  unfold natChars
  split
  · simp
  · rename_i hn
    intro h
    rw [List.reverse_eq_nil_iff] at h
    rw [List.map_eq_nil_iff] at h
    exact (Nat.digits_ne_nil_iff_ne_zero.mpr hn) h

lemma numbered_inj (name ext : List Char) :
    ∀ a b, numbered name ext a = numbered name ext b → a = b := by
  have hpos : ∀ k, 0 < (natChars (k + 1)).length := by
    intro k
    exact List.length_pos.mpr (natChars_ne_nil (k + 1))
  intro a b h
  match a, b with
  | 0, 0 => rfl
  | 0, k + 1 =>
    exfalso
    have hl := congrArg List.length h
    simp only [numbered, List.length_append, List.length_cons] at hl
    have := hpos k
    omega
  | j + 1, 0 =>
    exfalso
    have hl := congrArg List.length h
    simp only [numbered, List.length_append, List.length_cons] at hl
    have := hpos j
    omega
  | j + 1, k + 1 =>
    simp only [numbered] at h
    have h1 := List.append_cancel_left h
    have h2 : natChars (j + 1) ++ ext = natChars (k + 1) ++ ext := by
      injection h1
    have h3 := List.append_cancel_right h2
    have := natChars_pos_inj _ _ (Nat.succ_ne_zero j) (Nat.succ_ne_zero k) h3
    omega

lemma sanitize_mem_allowed (l : List Char) :
    ∀ c ∈ sanitize l, allowedChar c = true := by
  intro c hc
  simp only [sanitize, List.mem_map] at hc
  obtain ⟨x, _, hx⟩ := hc
  by_cases hax : allowedChar x = true
  · rw [← hx, if_pos hax]
    exact hax
  · rw [← hx, if_neg hax]
    decide

lemma sanitize_ne_nil (l : List Char) (h : l ≠ []) : sanitize l ≠ [] := by
  intro hc
  rw [sanitize, List.map_eq_nil_iff] at hc
  exact h hc

lemma saveBase_ne_nil (url : List Char) : saveBase url ≠ [] := by
  unfold saveBase
  split
  · apply sanitize_ne_nil
    decide
  · rename_i h0
    exact sanitize_ne_nil _ h0

lemma splitext_append (p : List Char) : (splitext p).1 ++ (splitext p).2 = p := by
  simp only [splitext]
  split
  · simp
  · split
    · exact List.take_append_drop _ p
    · simp

lemma numbered_head_ne_slash (name ext : List Char)
    (hne : name ++ ext ≠ [])
    (hall : ∀ c ∈ name ++ ext, allowedChar c = true) :
    ∀ k, ¬ (numbered name ext k).head? = some '/' := by
  have hslash : allowedChar '/' = false := by decide
  intro k
  match k with
  | 0 =>
    show ¬ (name ++ ext).head? = some '/'
    intro h
    cases hl : name ++ ext with
    | nil => rw [hl] at h; simp at h
    | cons a t =>
      rw [hl] at h
      simp only [List.head?_cons, Option.some.injEq] at h
      subst h
      have := hall '/' (by rw [hl]; simp)
      rw [hslash] at this
      exact Bool.false_ne_true this
  | k + 1 =>
    cases name with
    | nil =>
      intro h
      simp [numbered] at h
    | cons a t =>
      intro h
      simp only [numbered, List.cons_append, List.head?_cons, Option.some.injEq] at h
      subst h
      have := hall '/' (by simp)
      rw [hslash] at this
      exact Bool.false_ne_true this

lemma pathJoin_inj (dir a b : List Char)
    (ha : ¬ a.head? = some '/') (hb : ¬ b.head? = some '/')
    (h : pathJoin dir a = pathJoin dir b) : a = b := by
  unfold pathJoin at h
  rw [if_neg ha, if_neg hb] at h
  by_cases hd : dir = []
  · rwa [if_pos hd, if_pos hd] at h
  · rw [if_neg hd, if_neg hd] at h
    by_cases hl : dir.getLast? = some '/'
    · rw [if_pos hl, if_pos hl] at h
      exact List.append_cancel_left h
    · rw [if_neg hl, if_neg hl] at h
      have h2 := List.append_cancel_left h
      injection h2

lemma savedPath_inj (url dir : List Char) :
    Function.Injective (savedPath url dir) := by
  intro a b h
  have hbase : saveName url ++ saveExt url = saveBase url := splitext_append _
  have hne : saveName url ++ saveExt url ≠ [] := by
    rw [hbase]
    exact saveBase_ne_nil url
  have hall : ∀ c ∈ saveName url ++ saveExt url, allowedChar c = true := by
    rw [hbase]
    exact sanitize_mem_allowed _
  exact numbered_inj _ _ a b (pathJoin_inj dir _ _
    (numbered_head_ne_slash _ _ hne hall a) (numbered_head_ne_slash _ _ hne hall b) h)

lemma findFree_spec (paths : List (List Char)) (dir name ext : List Char) :
    ∀ (fuel k j : Nat), k ≤ j → j < k + fuel →
      (∀ i, k ≤ i → i < j → pathJoin dir (numbered name ext i) ∈ paths) →
      pathJoin dir (numbered name ext j) ∉ paths →
      findFree paths dir name ext fuel k = j := by
  intro fuel
  induction fuel with
  | zero =>
    intro k j h1 h2 _ _
    omega
  | succ f ih =>
    intro k j h1 h2 htaken hfree
    unfold findFree
    by_cases hkj : k = j
    · subst hkj
      rw [if_neg hfree]
    · have hk : k < j := by omega
      rw [if_pos (htaken k (Nat.le_refl k) hk)]
      exact ih (k + 1) j (by omega) (by omega)
        (fun i hi1 hi2 => htaken i (by omega) hi2) hfree

lemma findFree_first_free (paths : List (List Char)) (dir name ext : List Char)
    (hinj : Function.Injective fun k => pathJoin dir (numbered name ext k)) :
    pathJoin dir (numbered name ext
        (findFree paths dir name ext (paths.length + 1) 0)) ∉ paths := by
  have hex : ∃ j, pathJoin dir (numbered name ext j) ∉ paths := by
    by_contra hc
    push_neg at hc
    have hnd : ((List.range (paths.length + 1)).map
        (fun k => pathJoin dir (numbered name ext k))).Nodup :=
      (List.nodup_range _).map hinj
    have hsub : ((List.range (paths.length + 1)).map
        (fun k => pathJoin dir (numbered name ext k))).toFinset ⊆ paths.toFinset := by
      intro x hx
      rw [List.mem_toFinset] at hx ⊢
      obtain ⟨k, _, rfl⟩ := List.mem_map.mp hx
      exact hc k
    have hcard := Finset.card_le_card hsub
    rw [List.toFinset_card_of_nodup hnd, List.length_map, List.length_range] at hcard
    have h2 : paths.toFinset.card ≤ paths.length := paths.toFinset_card_le
    omega
  have hfind := Nat.find_spec hex
  have hmin : ∀ i, i < Nat.find hex → pathJoin dir (numbered name ext i) ∈ paths := by
    intro i hi
    have := Nat.find_min hex hi
    simpa using this
  have hle : Nat.find hex ≤ paths.length := by
    by_contra hgt
    push_neg at hgt
    have hnd : ((List.range (paths.length + 1)).map
        (fun k => pathJoin dir (numbered name ext k))).Nodup :=
      (List.nodup_range _).map hinj
    have hsub : ((List.range (paths.length + 1)).map
        (fun k => pathJoin dir (numbered name ext k))).toFinset ⊆ paths.toFinset := by
      intro x hx
      rw [List.mem_toFinset] at hx ⊢
      obtain ⟨k, hk, rfl⟩ := List.mem_map.mp hx
      rw [List.mem_range] at hk
      exact hmin k (by omega)
    have hcard := Finset.card_le_card hsub
    rw [List.toFinset_card_of_nodup hnd, List.length_map, List.length_range] at hcard
    have h2 : paths.toFinset.card ≤ paths.length := paths.toFinset_card_le
    omega
  rw [findFree_spec paths dir name ext (paths.length + 1) 0 (Nat.find hex)
    (Nat.zero_le _) (by omega) (fun i _ hi => hmin i hi) hfind]
  exact hfind

lemma saveFile_eq (fs : List (List Char × List Nat)) (data : List Nat)
    (url dir : List Char) :
    saveFile fs data url dir =
      (fs ++ [(savedPath url dir (findFree (fs.map Prod.fst) dir (saveName url)
          (saveExt url) ((fs.map Prod.fst).length + 1) 0), data)],
       savedPath url dir (findFree (fs.map Prod.fst) dir (saveName url)
          (saveExt url) ((fs.map Prod.fst).length + 1) 0)) := rfl

lemma saveFile_step (url dir : List Char) (data : List Nat) (n : Nat)
    (q : Nat → List Nat) :
    saveFile ((List.range n).map (fun i => (savedPath url dir i, q i))) data url dir
      = ((List.range n).map (fun i => (savedPath url dir i, q i))
          ++ [(savedPath url dir n, data)], savedPath url dir n) := by
  rw [saveFile_eq]
  have hpaths : ((List.range n).map (fun i => (savedPath url dir i, q i))).map Prod.fst
      = (List.range n).map (savedPath url dir) := by
    rw [List.map_map]
    rfl
  have hnot : savedPath url dir n ∉ (List.range n).map (savedPath url dir) := by
    intro hmem
    obtain ⟨k, hk, hkeq⟩ := List.mem_map.mp hmem
    have := savedPath_inj url dir hkeq
    rw [List.mem_range] at hk
    omega
  have htaken : ∀ i, 0 ≤ i → i < n →
      pathJoin dir (numbered (saveName url) (saveExt url) i)
        ∈ (List.range n).map (savedPath url dir) := by
    intro i _ hi
    exact List.mem_map.mpr ⟨i, List.mem_range.mpr hi, rfl⟩
  have hlen : ((List.range n).map (savedPath url dir)).length = n := by
    rw [List.length_map, List.length_range]
  have hfind : findFree (((List.range n).map
        (fun i => (savedPath url dir i, q i))).map Prod.fst) dir (saveName url)
        (saveExt url)
        ((((List.range n).map (fun i => (savedPath url dir i, q i))).map Prod.fst).length + 1)
        0 = n := by
    rw [hpaths, hlen]
    exact findFree_spec _ dir _ _ (n + 1) 0 n (Nat.zero_le _) (by omega)
      htaken hnot
  rw [hfind]

/-- C9: writing N payloads derived from the same URL into the same (initially
empty) output directory produces exactly N files: the i-th write lands at the
i-th candidate path and holds exactly its payload's bytes, the paths are
pairwise distinct, the first is the unsuffixed sanitized basename, and the
later ones insert `_1`, `_2`, … between the stem and the extension. -/
theorem C9_filename_collision_law (url dir : List Char) (payloads : List (List Nat)) :
    saveAll url dir payloads
        = (List.range payloads.length).map
            (fun i => (savedPath url dir i, payloads.getD i []))
    ∧ ((saveAll url dir payloads).map Prod.fst).Nodup
    ∧ numbered (saveName url) (saveExt url) 0 = saveName url ++ saveExt url
    ∧ (∀ i, numbered (saveName url) (saveExt url) (i + 1)
        = saveName url ++ '_' :: (natChars (i + 1) ++ saveExt url)) := by
  have hmain : saveAll url dir payloads
      = (List.range payloads.length).map
          (fun i => (savedPath url dir i, payloads.getD i [])) := by
    unfold saveAll
    induction payloads using List.reverseRecOn with
    | nil => simp
    | append_singleton ps p ih =>
      rw [List.foldl_append, ih, List.foldl_cons, List.foldl_nil]
      have h1 : (List.range ps.length).map (fun i => (savedPath url dir i, ps.getD i []))
          = (List.range ps.length).map
              (fun i => (savedPath url dir i, (ps ++ [p]).getD i [])) :=
        List.map_congr_left (fun i hi => by
          rw [List.mem_range] at hi
          rw [List.getD_append _ _ _ _ hi])
      have h2 : (ps ++ [p]).getD ps.length [] = p := by
        rw [List.getD_append_right _ _ _ _ (Nat.le_refl _)]
        simp
      rw [saveFile_step url dir p ps.length (fun i => ps.getD i [])]
      have hlen1 : (ps ++ [p]).length = ps.length + 1 := by simp
      rw [hlen1, List.range_succ, List.map_append, ← h1]
      simp only [List.map_cons, List.map_nil]
      rw [h2]
  refine ⟨hmain, ?_, rfl, fun i => rfl⟩
  rw [hmain, List.map_map]
  have : (Prod.fst ∘ fun i => (savedPath url dir i, payloads.getD i []))
      = savedPath url dir := rfl
  rw [this]
  exact (List.nodup_range _).map (savedPath_inj url dir)

/-- C10: for a URL whose parsed path has an empty basename, `save_file` falls
back to the base name "file" — behaving exactly as it does for the URL
`"file"` itself, with the same sanitization and collision handling — and it
does not fail: it appends one entry holding the payload at a path not already
present, and returns that path. -/
theorem C10_empty_basename_fallback (url dir : List Char)
    (fs : List (List Char × List Nat)) (data : List Nat)
    (hb : basenameL (urlPath url) = []) :
    saveFile fs data url dir = saveFile fs data ("file".toList) dir
    ∧ (saveFile fs data url dir).1 = fs ++ [((saveFile fs data url dir).2, data)]
    ∧ (saveFile fs data url dir).2 ∉ fs.map Prod.fst := by
  have hfb : basenameL (urlPath ("file".toList)) = "file".toList := by decide
  refine ⟨?_, rfl, ?_⟩
  · unfold saveFile
    rw [hb, hfb]
    rfl
  · rw [saveFile_eq]
    show savedPath url dir _ ∉ fs.map Prod.fst
    unfold savedPath
    apply findFree_first_free
    intro a b h
    exact savedPath_inj url dir h

/-- C10 witness: a URL whose parsed path ends in `/`, written into a fresh
directory. -/
theorem C10_empty_basename_fallback_witness :
    basenameL (urlPath ("http://example.com/a/".toList)) = []
    ∧ (saveFile [] [7] ("http://example.com/a/".toList) ("out".toList)
          = saveFile [] [7] ("file".toList) ("out".toList)
      ∧ (saveFile [] [7] ("http://example.com/a/".toList) ("out".toList)).1
          = [] ++ [((saveFile [] [7] ("http://example.com/a/".toList) ("out".toList)).2, [7])]
      ∧ (saveFile [] [7] ("http://example.com/a/".toList) ("out".toList)).2
          ∉ ([] : List (List Char × List Nat)).map Prod.fst) :=
  ⟨by decide, C10_empty_basename_fallback ("http://example.com/a/".toList)
    ("out".toList) [] [7] (by decide)⟩

/-! ## C2: sample quota under concurrency -/

lemma sum_map_set (f : Worker → Nat) :
    ∀ (ws : List Worker) (i : Nat) (w w' : Worker), ws.get? i = some w →
      ((ws.set i w').map f).sum + f w = (ws.map f).sum + f w' := by
  intro ws
  induction ws with
  | nil => intro i w w' h; simp at h
  | cons a l ih =>
    intro i w w' h
    cases i with
    | zero =>
      simp only [List.get?] at h
      injection h with h
      subst h
      simp [List.set]
      omega
    | succ n =>
      simp only [List.get?] at h
      simp only [List.set, List.map_cons, List.sum_cons]
      have := ih n w w' h
      omega

lemma sum_map_le_length (f : Worker → Nat) (hf : ∀ w, f w ≤ 1) :
    ∀ ws : List Worker, (ws.map f).sum ≤ ws.length := by
  intro ws
  induction ws with
  | nil => simp
  | cons a l ih =>
    simp only [List.map_cons, List.sum_cons, List.length_cons]
    have := hf a
    omega

lemma sum_map_lower (f : Worker → Nat) :
    ∀ (ws : List Worker) (i : Nat) (w : Worker), ws.get? i = some w →
      f w ≤ (ws.map f).sum := by
  intro ws
  induction ws with
  | nil => intro i w h; simp at h
  | cons a l ih =>
    intro i w h
    cases i with
    | zero =>
      simp only [List.get?] at h
      injection h with h
      subst h
      simp only [List.map_cons, List.sum_cons]
      omega
    | succ n =>
      simp only [List.get?] at h
      simp only [List.map_cons, List.sum_cons]
      have := ih n w h
      omega

lemma pend_le_busy : ∀ ws : List Worker, pend ws ≤ busy ws := by
  intro ws
  induction ws with
  | nil => simp [pend, busy]
  | cons a l ih =>
    simp only [pend, busy, List.map_cons, List.sum_cons] at ih ⊢
    have : phasePend a.phase ≤ phaseBusy a.phase := by
      cases a.phase <;> decide
    omega

lemma phaseBusy_le_one (p : Phase) : phaseBusy p ≤ 1 := by
  cases p <;> decide

lemma poolStep_inv (cap n : Nat) (s : PoolState) (i : Nat)
    (h : PoolInv cap n s) : PoolInv cap n (poolStep cap s i) := by
  obtain ⟨hlen, hfiles, hdisj⟩ := h
  have eb1 : phaseBusy .ready = 0 := rfl
  have eb2 : phaseBusy .writing = 1 := rfl
  have eb3 : phaseBusy .incr = 1 := rfl
  have ep1 : phasePend .ready = 0 := rfl
  have ep2 : phasePend .writing = 0 := rfl
  have ep3 : phasePend .incr = 1 := rfl
  unfold poolStep
  cases hw : s.workers.get? i with
  | none => exact ⟨hlen, hfiles, hdisj⟩
  | some w =>
    obtain ⟨wp, wr⟩ := w
    cases wp with
    | ready =>
      dsimp only
      by_cases h0 : wr = 0
      · rw [if_pos h0]
        exact ⟨hlen, hfiles, hdisj⟩
      · rw [if_neg h0]
        by_cases hcap : cap ≤ s.count
        · rw [if_pos hcap]
          have hb := sum_map_set (fun w => phaseBusy w.phase) s.workers i
            ⟨.ready, wr⟩ ⟨.ready, wr - 1⟩ hw
          have hq := sum_map_set (fun w => phasePend w.phase) s.workers i
            ⟨.ready, wr⟩ ⟨.ready, wr - 1⟩ hw
          dsimp only at hb hq
          simp only [eb1, ep1] at hb hq
          refine ⟨by simpa using hlen, ?_, ?_⟩
          · simp only [pend] at hfiles ⊢
            omega
          · simp only [busy] at hdisj ⊢
            rcases hdisj with h1 | h1
            · left; omega
            · right; exact ⟨h1.1, by omega⟩
        · rw [if_neg hcap]
          have hb := sum_map_set (fun w => phaseBusy w.phase) s.workers i
            ⟨.ready, wr⟩ ⟨.writing, wr⟩ hw
          have hq := sum_map_set (fun w => phasePend w.phase) s.workers i
            ⟨.ready, wr⟩ ⟨.writing, wr⟩ hw
          have hle := sum_map_le_length (fun w => phaseBusy w.phase)
            (fun w => phaseBusy_le_one w.phase)
            (s.workers.set i ⟨.writing, wr⟩)
          rw [List.length_set, hlen] at hle
          dsimp only at hb hq
          simp only [eb1, eb2, ep1, ep2] at hb hq
          refine ⟨by simpa using hlen, ?_, ?_⟩
          · simp only [pend] at hfiles ⊢
            omega
          · left
            simp only [busy] at hle ⊢
            omega
    | writing =>
      dsimp only
      have hb := sum_map_set (fun w => phaseBusy w.phase) s.workers i
        ⟨.writing, wr⟩ ⟨.incr, wr⟩ hw
      have hq := sum_map_set (fun w => phasePend w.phase) s.workers i
        ⟨.writing, wr⟩ ⟨.incr, wr⟩ hw
      have hlow := sum_map_lower (fun w => phaseBusy w.phase) s.workers i
        ⟨.writing, wr⟩ hw
      dsimp only at hb hq hlow
      simp only [eb2, eb3, ep2, ep3] at hb hq hlow
      refine ⟨by simpa using hlen, ?_, ?_⟩
      · simp only [pend] at hfiles ⊢
        omega
      · left
        simp only [busy] at hdisj ⊢
        rcases hdisj with h1 | h1
        · omega
        · omega
    | incr =>
      dsimp only
      have hb := sum_map_set (fun w => phaseBusy w.phase) s.workers i
        ⟨.incr, wr⟩ ⟨.ready, wr - 1⟩ hw
      have hq := sum_map_set (fun w => phasePend w.phase) s.workers i
        ⟨.incr, wr⟩ ⟨.ready, wr - 1⟩ hw
      have hlow := sum_map_lower (fun w => phaseBusy w.phase) s.workers i
        ⟨.incr, wr⟩ hw
      dsimp only at hb hq hlow
      simp only [eb1, eb3, ep1, ep3] at hb hq hlow
      refine ⟨by simpa using hlen, ?_, ?_⟩
      · simp only [pend] at hfiles ⊢
        omega
      · left
        simp only [busy] at hdisj ⊢
        rcases hdisj with h1 | h1
        · omega
        · omega

lemma poolRun_inv (cap n : Nat) (sched : List Nat) :
    ∀ s, PoolInv cap n s → PoolInv cap n (poolRun cap s sched) := by
  induction sched with
  | nil => intro s h; exact h
  | cons i rest ih =>
    intro s h
    exact ih _ (poolStep_inv cap n s i h)

lemma initPool_inv (cap : Nat) (recs : List Nat) :
    PoolInv cap recs.length (initPool recs) := by
  have hzero : ∀ f : Worker → Nat, (∀ n, f { phase := .ready, recs := n } = 0) →
      ((recs.map (fun n => ({ phase := .ready, recs := n } : Worker))).map f).sum = 0 := by
    intro f hf
    induction recs with
    | nil => simp
    | cons a l ih =>
        simp only [List.map_cons, List.sum_cons, hf a, Nat.zero_add]
        exact ih
  refine ⟨by simp [initPool], ?_, Or.inr ⟨rfl, ?_⟩⟩
  · show (0 : Nat) = 0 + pend _
    unfold pend initPool
    rw [hzero _ (fun n => rfl)]
  · show busy _ = 0
    unfold busy initPool
    exact hzero _ (fun n => rfl)

/-- C2 counterexample: with per-category cap 1 and two workers each holding
one matched record, the interleaving check₀, check₁, write₀, incr₀, write₁,
incr₁ writes 2 files — both workers pass the locked quota check before
either increments, because the check and the increment are separate lock
acquisitions. -/
theorem C2_counterexample :
    (poolRun 1 (initPool [1, 1]) [0, 1, 0, 0, 1, 1]).files = 2
    ∧ 1 < (poolRun 1 (initPool [1, 1]) [0, 1, 0, 0, 1, 1]).files := by
  constructor <;> decide

/-- C2 amended: the quota check happens under the lock immediately before
each write, but the increment is a separate critical section, so with `W`
concurrent workers the number of files written for a category is bounded by
`cap + W - 1`, not by `cap`; in particular a single worker respects the cap
exactly. -/
theorem C2_amended_quota_bound (cap : Nat) (recs : List Nat) (sched : List Nat) :
    (poolRun cap (initPool recs) sched).files ≤ cap + recs.length - 1 := by
  have h := poolRun_inv cap recs.length sched (initPool recs) (initPool_inv cap recs)
  obtain ⟨hlen, hfiles, hdisj⟩ := h
  have hpb := pend_le_busy (poolRun cap (initPool recs) sched).workers
  rcases hdisj with h1 | ⟨hc, hb⟩ <;> omega

/-! ## C3: chunked gzip line iteration -/

/-- C3 counterexample: a two-member gzip stream whose members decompress to
`"a\n"` and `"b\n"`, delivered in chunks of 15 and 25 bytes (the second chunk
spanning the member boundary), yields only the first member's line `"a"`: the
second member lands in `unused_data` and is silently dropped, so the
iterators do not yield the lines of the concatenation of all members. -/
theorem C3_counterexample :
    iterGzipLines [⟨20, [97, NL]⟩, ⟨20, [98, NL]⟩] (fun n => min (n / 10) 2) [15, 25]
        = [[97]]
    ∧ streamLines [⟨20, [97, NL]⟩, ⟨20, [98, NL]⟩] = [[97], [98]]
    ∧ iterGzipLines [⟨20, [97, NL]⟩, ⟨20, [98, NL]⟩] (fun n => min (n / 10) 2) [15, 25]
        ≠ streamLines [⟨20, [97, NL]⟩, ⟨20, [98, NL]⟩] := by
  refine ⟨by decide, by decide, by decide⟩

lemma splitCL_append (y : List Nat) : ∀ x : List Nat,
    splitCL (x ++ y) = ((splitCL x).1 ++ (splitCL ((splitCL x).2 ++ y)).1,
                        (splitCL ((splitCL x).2 ++ y)).2) := by
  intro x
  induction x with
  | nil => simp [splitCL]
  | cons b rest ih =>
    rw [List.cons_append]
    by_cases hb : b = NL
    · simp only [splitCL, if_pos hb, ih]
      simp
    · cases hr : splitCL rest with
      | mk ls r =>
        cases ls with
        | nil =>
          cases hry : splitCL (r ++ y) with
          | mk ls2 r2 =>
            cases ls2 with
            | nil =>
              simp only [splitCL, if_neg hb, ih, hr, hry, List.nil_append,
                List.cons_append]
            | cons l2 ls2' =>
              simp only [splitCL, if_neg hb, ih, hr, hry, List.nil_append,
                List.cons_append]
        | cons l ls' =>
          simp only [splitCL, if_neg hb, ih, hr, List.cons_append, List.append_assoc]

lemma emitted_append (m : GzipMember) (sched : Nat → Nat)
    (hmono : ∀ a b, a ≤ b → sched a ≤ sched b) (consumed k : Nat) :
    emitted m sched consumed ++
      ((emitted m sched (consumed + k)).drop (sched (min consumed m.compLen)))
      = emitted m sched (consumed + k) := by
  unfold emitted
  have h1 : sched (min consumed m.compLen) ≤ sched (min (consumed + k) m.compLen) :=
    hmono _ _ (by omega)
  conv_rhs =>
    rw [← List.take_append_drop (sched (min consumed m.compLen))
      (List.take (sched (min (consumed + k) m.compLen)) m.plain)]
  rw [List.take_take, Nat.min_eq_left h1]

lemma iterGo_spec (m : GzipMember) (sched : Nat → Nat)
    (hmono : ∀ a b, a ≤ b → sched a ≤ sched b) :
    ∀ (chunks : List Nat) (consumed : Nat) (pre : List (List Nat)),
      iterGo m sched chunks consumed (splitCL (emitted m sched consumed)).2
          (pre ++ (splitCL (emitted m sched consumed)).1)
        = pre ++ linesOf (emitted m sched (consumed + chunks.sum)) := by
  intro chunks
  induction chunks with
  | nil =>
    intro consumed pre
    simp only [iterGo, linesOf, List.sum_nil, Nat.add_zero, List.append_assoc]
  | cons k ks ih =>
    intro consumed pre
    have hE := emitted_append m sched hmono consumed k
    by_cases hp : (emitted m sched (consumed + k)).drop
        (sched (min consumed m.compLen)) = []
    · have hsame : emitted m sched (consumed + k) = emitted m sched consumed := by
        rw [← hE, hp, List.append_nil]
      simp only [iterGo, hp, if_pos rfl]
      rw [← hsame]
      have := ih (consumed + k) pre
      rw [this]
      have : consumed + (k :: ks).sum = consumed + k + ks.sum := by
        simp [List.sum_cons]
        omega
      rw [this]
      simp
    · have hsplit := splitCL_append
        ((emitted m sched (consumed + k)).drop (sched (min consumed m.compLen)))
        (emitted m sched consumed)
      rw [hE] at hsplit
      simp only [iterGo, hp, if_neg (by exact hp)]
      have h1 : (splitCL ((splitCL (emitted m sched consumed)).2 ++
          (emitted m sched (consumed + k)).drop (sched (min consumed m.compLen)))).2
          = (splitCL (emitted m sched (consumed + k))).2 := by
        rw [hsplit]
      have h2 : (pre ++ (splitCL (emitted m sched consumed)).1) ++
          (splitCL ((splitCL (emitted m sched consumed)).2 ++
            (emitted m sched (consumed + k)).drop (sched (min consumed m.compLen)))).1
          = pre ++ (splitCL (emitted m sched (consumed + k))).1 := by
        rw [hsplit]
        simp [List.append_assoc]
      rw [h1, h2, ih (consumed + k) pre]
      have : consumed + (k :: ks).sum = consumed + k + ks.sum := by
        simp [List.sum_cons]
        omega
      rw [this]
      simp

/-- C3 amended: for a SINGLE-member gzip source delivered in arbitrarily
sized chunks, the iterators yield exactly the lines of the member's
plaintext — a line spanning a chunk boundary is reassembled and trailing
bytes are flushed as a final line — but a stream of two or more concatenated
members yields only the first member's lines (see the counterexample). -/
theorem C3_single_member_lines (m : GzipMember) (sched : Nat → Nat)
    (chunks : List Nat)
    (hmono : ∀ a b, a ≤ b → sched a ≤ sched b)
    (h0 : sched 0 = 0)
    (hend : sched m.compLen = m.plain.length)
    (hchunks : m.compLen ≤ chunks.sum) :
    iterGzipLines [m] sched chunks = linesOf m.plain := by
  have hstart : emitted m sched 0 = [] := by
    unfold emitted
    have hmin : min 0 m.compLen = 0 := by omega
    rw [hmin, h0, List.take_zero]
  have hfinal : emitted m sched (0 + chunks.sum) = m.plain := by
    unfold emitted
    have hmin : min (0 + chunks.sum) m.compLen = m.compLen := by omega
    rw [hmin, hend, List.take_length]
  have hrun := iterGo_spec m sched hmono chunks 0 []
  rw [hstart] at hrun
  simp only [splitCL, List.nil_append] at hrun
  show iterGo m sched chunks 0 [] [] = linesOf m.plain
  rw [hrun, hfinal]

/-- C3 witness for the single-member theorem: plaintext `"x\ny"` in a
5-byte member delivered as chunks of 2 and 3 bytes; the line `"x"` and the
flushed trailing `"y"` come out. -/
theorem C3_single_member_lines_witness :
    (∀ a b : Nat, a ≤ b → min a 3 ≤ min b 3)
    ∧ min 0 3 = 0
    ∧ min (5 : Nat) 3 = ([120, NL, 121] : List Nat).length
    ∧ (5 : Nat) ≤ ([2, 3] : List Nat).sum
    ∧ iterGzipLines [⟨5, [120, NL, 121]⟩] (fun n => min n 3) [2, 3]
        = linesOf [120, NL, 121] :=
  ⟨fun a b h => by omega, by decide, by decide, by decide,
   C3_single_member_lines ⟨5, [120, NL, 121]⟩ (fun n => min n 3) [2, 3]
     (fun a b h => by dsimp only; omega) (by decide) (by decide) (by decide)⟩

/-! ## C4: retry schedules -/


lemma range_map_shift {α : Type} (g : Nat → α) (a n : Nat) :
    (List.range (n + 1)).map (fun i => g (a + i)) =
      g a :: (List.range n).map (fun i => g (a + 1 + i)) := by
  rw [List.range_succ_eq_map, List.map_cons, List.map_map, Nat.add_zero]
  refine congrArg (List.cons (g a)) ?_
  apply List.map_congr_left
  intro i _
  simp only [Function.comp_apply]
  congr 1
  omega

lemma retryLoop_succeeds {E A : Type} (f : Nat → Except E A) (delays : Nat → Nat) (v : A) :
    ∀ k a t, k < t → (∀ i, i < k → ∃ e, f (a + i) = .error e) → f (a + k) = .ok v →
      retryLoop f delays a t =
        (.ok v, (List.range k).map (fun i => delays (a + i)),
         (List.range (k + 1)).map (fun i => a + i)) := by
  intro k
  induction k with
  | zero =>
    intro a t _ _ hok
    rw [Nat.add_zero] at hok
    rcases t with _ | _ | t' <;> unfold retryLoop <;> rw [hok] <;>
      simp [List.range_succ]
  | succ n ih =>
    intro a t ht hfail hok
    obtain ⟨e, he⟩ := hfail 0 (Nat.succ_pos n)
    rw [Nat.add_zero] at he
    obtain ⟨t', rfl⟩ : ∃ t', t = t' + 2 := ⟨t - 2, by omega⟩
    unfold retryLoop
    rw [he]
    have hrec := ih (a + 1) (t' + 1) (by omega)
      (fun i hi => by
        obtain ⟨e', he'⟩ := hfail (i + 1) (by omega)
        have harg : a + 1 + i = a + (i + 1) := by omega
        exact ⟨e', by rw [harg]; exact he'⟩)
      (by
        have harg : a + 1 + n = a + (n + 1) := by omega
        rw [harg]; exact hok)
    simp only [hrec, range_map_shift (fun i => delays i) a (n := n),
      range_map_shift (fun i => i) a (n := n + 1)]

lemma retryLoop_fails {E A : Type} (f : Nat → Except E A) (delays : Nat → Nat)
    (err : Nat → E) :
    ∀ s a, (∀ i, i ≤ s → f (a + i) = .error (err (a + i))) →
      retryLoop f delays a (s + 1) =
        (.error (err (a + s)), (List.range s).map (fun i => delays (a + i)),
         (List.range (s + 1)).map (fun i => a + i)) := by
  intro s
  induction s with
  | zero =>
    intro a h
    have h0 := h 0 (Nat.le_refl 0)
    rw [Nat.add_zero] at h0
    unfold retryLoop
    rw [h0]
    simp [List.range_succ]
  | succ n ih =>
    intro a h
    have h0 := h 0 (Nat.zero_le _)
    rw [Nat.add_zero] at h0
    unfold retryLoop
    rw [h0]
    have hrec := ih (a + 1) (fun i hi => by
      have harg : a + 1 + i = a + (i + 1) := by omega
      rw [harg]
      exact h (i + 1) (by omega))
    have hlast : a + 1 + n = a + (n + 1) := by omega
    rw [hlast] at hrec
    simp only [hrec, range_map_shift (fun i => delays i) a (n := n),
      range_map_shift (fun i => i) a (n := n + 1)]

lemma range_map_add_zero {α : Type} (g : Nat → α) (n : Nat) :
    (List.range n).map (fun i => g (0 + i)) = (List.range n).map g := by
  apply List.map_congr_left
  intro i _
  rw [Nat.zero_add]

/-- C4: a fetch that fails transiently exactly `k` times (below the attempt
budget) and then succeeds returns the payload after exactly `k` sleeps, the
delays doubling from 1 second in the short (3-attempt) variant of
`stream_and_extract_http` and following the 30/120/600/1800 table (last entry
repeated) in the long variant `fetch_with_backoff`; a fetch failing on every
attempt re-raises the last error after exhausting exactly the budget, with no
further attempts. -/
theorem C4_retry_policy {E A : Type} (err : Nat → E) (v : A) (k m maxR : Nat)
    (hk : k < 3) (hm : m ≤ maxR) :
    shortRetry (failThenOk err v k) =
        (.ok v, (List.range k).map pow2Delay, List.range (k + 1))
    ∧ longRetry maxR (failThenOk err v m) =
        (.ok v, (List.range m).map tableDelay, List.range (m + 1))
    ∧ shortRetry (allFail err (A := A)) = (.error (err 2), [1, 2], [0, 1, 2])
    ∧ longRetry maxR (allFail err (A := A)) =
        (.error (err maxR), (List.range maxR).map tableDelay, List.range (maxR + 1))
    ∧ pow2Delay 0 = 1 ∧ (∀ i, pow2Delay (i + 1) = 2 * pow2Delay i)
    ∧ tableDelay 0 = 30 ∧ tableDelay 1 = 120 ∧ tableDelay 2 = 600
    ∧ (∀ i, 3 ≤ i → tableDelay i = 1800) := by
  have hfail : ∀ (j : Nat), ∀ i, i < j → ∃ e, failThenOk err v j (0 + i) = .error e :=
    fun j i hi => ⟨err (0 + i), by simp [failThenOk, Nat.zero_add, hi]⟩
  have hok : ∀ (j : Nat), failThenOk err v j (0 + j) = .ok v :=
    fun j => by simp [failThenOk]
  have hall : ∀ s i, i ≤ s → allFail err (A := A) (0 + i) = .error (err (0 + i)) :=
    fun s i _ => rfl
  refine ⟨?_, ?_, ?_, ?_, rfl, fun i => by simp [pow2Delay, Nat.pow_succ, Nat.mul_comm],
    rfl, rfl, rfl, fun i hi => ?_⟩
  · have := retryLoop_succeeds (failThenOk err v k) pow2Delay v k 0 3 hk
      (hfail k) (hok k)
    rw [shortRetry, this, range_map_add_zero, range_map_add_zero (fun i => i)]
    simp
  · have := retryLoop_succeeds (failThenOk err v m) tableDelay v m 0 (maxR + 1)
      (by omega) (hfail m) (hok m)
    rw [longRetry, this, range_map_add_zero, range_map_add_zero (fun i => i)]
    simp
  · have := retryLoop_fails (allFail err (A := A)) pow2Delay err 2 0 (hall 2)
    rw [shortRetry, this]
    rfl
  · have := retryLoop_fails (allFail err (A := A)) tableDelay err maxR 0 (hall maxR)
    rw [longRetry, this, range_map_add_zero, range_map_add_zero (fun i => i)]
    simp
  · unfold tableDelay
    have hlen : BACKOFF_DELAYS.length - 1 = 3 := rfl
    rw [hlen]
    have hmin : min i 3 = 3 := by omega
    rw [hmin]
    rfl

/-- C4 witness: the retry law at `k = 1`, `m = maxR = 5`, payload 7,
error values the attempt index. -/
theorem C4_retry_policy_witness :
    ((1 : Nat) < 3 ∧ (5 : Nat) ≤ 5) ∧
    (shortRetry (failThenOk (fun i : Nat => i) (7 : Nat) 1) =
        (.ok 7, (List.range 1).map pow2Delay, List.range 2)
    ∧ longRetry 5 (failThenOk (fun i : Nat => i) (7 : Nat) 5) =
        (.ok 7, (List.range 5).map tableDelay, List.range 6)
    ∧ shortRetry (allFail (fun i : Nat => i) (A := Nat)) =
        (.error 2, [1, 2], [0, 1, 2])
    ∧ longRetry 5 (allFail (fun i : Nat => i) (A := Nat)) =
        (.error 5, (List.range 5).map tableDelay, List.range 6)
    ∧ pow2Delay 0 = 1 ∧ (∀ i, pow2Delay (i + 1) = 2 * pow2Delay i)
    ∧ tableDelay 0 = 30 ∧ tableDelay 1 = 120 ∧ tableDelay 2 = 600
    ∧ (∀ i, 3 ≤ i → tableDelay i = 1800)) :=
  ⟨⟨by decide, by decide⟩,
   C4_retry_policy (fun i : Nat => i) (7 : Nat) 1 5 5 (by decide) (by decide)⟩

/-! ## C5: 404 handling -/

/-- C5 counterexample: a fetch performed by `stream_and_extract_http` whose
every attempt returns HTTP 404 IS retried — two backoff sleeps (1s, 2s) and
three attempts are performed before the `HTTPError` propagates — refuting
"zero retries and zero sleeps" for every fetch performed by the program. -/
theorem C5_counterexample :
    streamExtractHttpFetch (A := Unit) (fun _ => .httpStatus 404) =
      (.error (.http 404), [1, 2], [0, 1, 2]) := rfl

/-- C5 amended: in the streaming processor's `fetch_lines` a 404 response
short-circuits — zero retries and zero sleeps, a non-fatal skip for that URL
— but in the requests-based `stream_and_extract_http` a 404 raises
`HTTPError`, is caught as a `RequestException`, and is retried like a
transient failure. -/
theorem C5_amended {A : Type} [Inhabited A] (out : Nat → FetchOutcome A) (maxR : Nat)
    (h404 : out 0 = .httpStatus 404) :
    fetchLines out maxR = (.skip, [])
    ∧ streamExtractHttpFetch (A := Unit) (fun _ => .httpStatus 404) =
        (.error (.http 404), [1, 2], [0, 1, 2]) := by
  refine ⟨?_, rfl⟩
  show fetchLinesLoop out 0 maxR = (.skip, [])
  have hA : flAttempt out 0 = .ok .skip := by
    unfold flAttempt
    rw [h404]
    rfl
  cases maxR <;> unfold fetchLinesLoop <;> rw [hA]

/-- C5 witness: every attempt answering 404. -/
theorem C5_amended_witness :
    ((fun _ : Nat => FetchOutcome.httpStatus (A := Nat) 404) 0 = .httpStatus 404) ∧
    (fetchLines (fun _ : Nat => FetchOutcome.httpStatus (A := Nat) 404) 4 = (.skip, [])
    ∧ streamExtractHttpFetch (A := Unit) (fun _ => .httpStatus 404) =
        (.error (.http 404), [1, 2], [0, 1, 2])) :=
  ⟨rfl, C5_amended (fun _ : Nat => FetchOutcome.httpStatus (A := Nat) 404) 4 rfl⟩

/-! ## C7: producer/consumer sentinel protocol -/

/-- C7: the run enqueues `consumers + 1` sentinels in total — the producer
itself enqueues one after the URLs, and `run` enqueues one per consumer after
the first drain — while each consumer exits upon its first sentinel and so
finishes at most one; hence strictly fewer sentinels are consumed than were
enqueued, the queue can never fully drain again, and the final
`queue.join()` of `run` blocks forever instead of terminating. -/
theorem C7_sentinel_starvation (consumers : Nat) (urls : List String)
    (consumed : Fin consumers → List (Option String))
    (hexit : ∀ i, (consumed i).count (none : Option String) ≤ 1) :
    (allPuts urls consumers).count (none : Option String) = consumers + 1
    ∧ (Finset.univ.sum fun i => (consumed i).count (none : Option String))
        < (allPuts urls consumers).count (none : Option String) := by
  have hcount : (allPuts urls consumers).count (none : Option String) = consumers + 1 := by
    unfold allPuts producerPuts shutdownPuts
    rw [List.count_append, List.count_append]
    have h1 : (urls.map some).count (none : Option String) = 0 := by
      rw [List.count_eq_zero]
      simp
    have h2 : ([none] : List (Option String)).count none = 1 := rfl
    have h3 : (List.replicate consumers (none : Option String)).count none = consumers := by
      simp [List.count_replicate]
    omega
  refine ⟨hcount, ?_⟩
  rw [hcount]
  have hsum : (Finset.univ.sum fun i => (consumed i).count (none : Option String))
      ≤ consumers := by
    calc (Finset.univ.sum fun i => (consumed i).count (none : Option String))
        ≤ Finset.univ.card • 1 :=
          Finset.sum_le_card_nsmul _ _ 1 (fun i _ => hexit i)
      _ = consumers := by simp
  omega

/-- C7 witness: two consumers, one URL, each consumer having consumed exactly
one sentinel. -/
theorem C7_sentinel_starvation_witness :
    (∀ i : Fin 2, (((fun _ : Fin 2 => [(none : Option String)]) i).count
        (none : Option String)) ≤ 1)
    ∧ ((allPuts ["u"] 2).count (none : Option String) = 2 + 1
      ∧ (Finset.univ.sum fun i : Fin 2 =>
          (((fun _ : Fin 2 => [(none : Option String)]) i).count (none : Option String)))
          < (allPuts ["u"] 2).count (none : Option String)) :=
  ⟨by decide, C7_sentinel_starvation 2 ["u"] (fun _ => [none]) (by decide)⟩

/-! ## C8: manifest normalization -/

/-- C8 counterexample: a manifest line already carrying the `crawl-data/`
root is prefixed again, yielding a double-prefixed key instead of being
returned unchanged. -/
theorem C8_counterexample :
    manifestKeys ["crawl-data/seg/x.warc.gz".toList] 10
        = ["crawl-data/crawl-data/seg/x.warc.gz".toList]
    ∧ manifestKeys ["crawl-data/seg/x.warc.gz".toList] 10
        ≠ ["crawl-data/seg/x.warc.gz".toList] := by
  constructor
  · decide
  · decide

lemma manifestLoop_spec (maxKeys : Nat) :
    ∀ (lines : List (List Char)) (acc : List (List Char)), acc.length < maxKeys →
      manifestLoop maxKeys acc lines =
        acc ++ ((((lines.map pyStrip).filter
            (fun k => warcSuffix.isSuffixOf k)).map (fun k => dataRoot ++ k)).take
          (maxKeys - acc.length)) := by
  intro lines
  induction lines with
  | nil =>
    intro acc _
    simp [manifestLoop]
  | cons line rest ih =>
    intro acc hacc
    by_cases hs : warcSuffix.isSuffixOf (pyStrip line) = true
    · by_cases hstop : maxKeys ≤ (acc ++ [dataRoot ++ pyStrip line]).length
      · have htake : maxKeys - acc.length = 1 := by
          rw [List.length_append] at hstop
          simp at hstop
          omega
        simp only [manifestLoop, hs, if_true, if_pos hstop, List.map_cons,
          List.filter_cons, htake]
        simp
      · have hlt : (acc ++ [dataRoot ++ pyStrip line]).length < maxKeys := by omega
        have hrec := ih (acc ++ [dataRoot ++ pyStrip line]) hlt
        have hd : maxKeys - acc.length
            = (maxKeys - (acc ++ [dataRoot ++ pyStrip line]).length) + 1 := by
          rw [List.length_append]
          simp
          omega
        simp only [manifestLoop, hs, if_true, if_neg hstop, hrec, List.map_cons,
          List.filter_cons, hd]
        rw [List.take_succ_cons]
        simp
    · have hrec := ih acc hacc
      simp only [manifestLoop, hs, if_false, hrec, List.map_cons, List.filter_cons]
      simp

/-- C8 amended: `list_warc_keys_http` keeps exactly the stripped manifest
lines ending in `.warc.gz`, prefixes every kept line with `crawl-data/`
UNCONDITIONALLY (a line already carrying the prefix is double-prefixed, not
returned unchanged), and stops as soon as the cap is reached. -/
theorem C8_amended_manifest (lines : List (List Char)) (maxKeys : Nat)
    (h : 1 ≤ maxKeys) :
    manifestKeys lines maxKeys =
      (((lines.map pyStrip).filter (fun k => warcSuffix.isSuffixOf k)).map
        (fun k => dataRoot ++ k)).take maxKeys := by
  have := manifestLoop_spec maxKeys lines [] (by simpa using h)
  simpa [manifestKeys] using this

/-- C8 witness: two matching lines (one needing a strip), one skipped line,
cap 2. -/
theorem C8_amended_manifest_witness :
    1 ≤ 2
    ∧ manifestKeys ["a.warc.gz".toList, "skip.txt".toList,
        " b.warc.gz ".toList, "c.warc.gz".toList] 2 =
      ((((["a.warc.gz".toList, "skip.txt".toList, " b.warc.gz ".toList,
          "c.warc.gz".toList].map pyStrip).filter
        (fun k => warcSuffix.isSuffixOf k)).map (fun k => dataRoot ++ k)).take 2) :=
  ⟨by decide,
   C8_amended_manifest ["a.warc.gz".toList, "skip.txt".toList,
     " b.warc.gz ".toList, "c.warc.gz".toList] 2 (by decide)⟩

/-! ## C6: resumption and finally-guaranteed state persistence -/

lemma mem_stateAdd (s : List String) (k k' : String) :
    k' ∈ stateAdd s k ↔ k' ∈ s ∨ k' = k := by
  unfold stateAdd
  split
  · rename_i h
    constructor
    · exact Or.inl
    · rintro (h' | rfl)
      · exact h'
      · exact h
  · simp

lemma processSegments_state_mem (outcome : String → Bool) (todo : List String) :
    ∀ state k, k ∈ (processSegments outcome state todo).1 ↔ k ∈ state ∨ k ∈ todo := by
  induction todo with
  | nil => intro state k; simp [processSegments]
  | cons key rest ih =>
      intro state k
      simp only [processSegments, ih, mem_stateAdd, List.mem_cons]
      tauto

lemma processSegments_state_indep (o o' : String → Bool) (todo : List String) :
    ∀ state, (processSegments o state todo).1 = (processSegments o' state todo).1 := by
  induction todo with
  | nil => intro state; rfl
  | cons key rest ih => intro state; simp only [processSegments]; exact ih _

lemma processSegments_snapshot (outcome : String → Bool) (todo : List String) :
    ∀ state i, i < todo.length →
      todo.getD i "" ∈ (processSegments outcome state todo).2.2.getD i [] := by
  induction todo with
  | nil => intro state i hi; simp at hi
  | cons key rest ih =>
      intro state i hi
      cases i with
      | zero => simp [processSegments, mem_stateAdd]
      | succ n =>
          simpa [processSegments] using ih (stateAdd state key) n (by simpa using hi)

lemma processSegments_snapshot_len (outcome : String → Bool) (todo : List String) :
    ∀ state, (processSegments outcome state todo).2.2.length = todo.length := by
  induction todo with
  | nil => intro state; rfl
  | cons key rest ih => intro state; simp [processSegments, ih _]

lemma runCoordinator_eq (keys completed : List String) (outcome : String → Bool) :
    runCoordinator keys completed outcome =
      ((processSegments outcome completed
          (keys.filter (fun k => decide (k ∉ completed)))).1,
       keys.filter (fun k => decide (k ∉ completed)),
       (processSegments outcome completed
          (keys.filter (fun k => decide (k ∉ completed)))).2.2) := by
  have hfilter : (if completed.isEmpty then keys
      else keys.filter (fun k => decide (k ∉ completed)))
      = keys.filter (fun k => decide (k ∉ completed)) := by
    split
    · rename_i h
      rw [List.isEmpty_iff] at h
      subst h
      simp
    · rfl
  unfold runCoordinator
  simp only [hfilter]
  split
  · rename_i h
    rw [List.isEmpty_iff] at h
    rw [h]
    rfl
  · rfl

/-- C6: the coordinator dispatches exactly the candidate segments not in the
loaded completion state (a no-op when none remain); the final persisted state
is the prior state plus every dispatched segment, independently of each
segment's success or failure (the `finally` step); each dispatched segment is
in the snapshot persisted right after it finishes; and on segment list
`[A, B]` with prior state `{A}` only `B` is processed and the final state is
`{A, B}`. -/
theorem C6_resume_and_finalize (keys completed : List String)
    (outcome outcome' : String → Bool) :
    (runCoordinator keys completed outcome).2.1
        = keys.filter (fun k => decide (k ∉ completed))
    ∧ (∀ k, k ∈ (runCoordinator keys completed outcome).1 ↔
          k ∈ completed ∨ k ∈ (runCoordinator keys completed outcome).2.1)
    ∧ (runCoordinator keys completed outcome).1 = (runCoordinator keys completed outcome').1
    ∧ (∀ i, i < (runCoordinator keys completed outcome).2.1.length →
        (runCoordinator keys completed outcome).2.1.getD i ""
          ∈ (runCoordinator keys completed outcome).2.2.getD i [])
    ∧ runCoordinator ["A", "B"] ["A"] outcome = (["A", "B"], ["B"], [["A", "B"]]) := by
  rw [runCoordinator_eq keys completed outcome, runCoordinator_eq keys completed outcome']
  refine ⟨rfl, ?_, ?_, ?_, ?_⟩
  · intro k
    exact processSegments_state_mem outcome _ completed k
  · exact processSegments_state_indep outcome outcome' _ completed
  · intro i hi
    exact processSegments_snapshot outcome _ completed i hi
  · rw [runCoordinator_eq]
    rfl

end CCCrawler
